import Mathlib

/- Verification of the numerator utility (src/numerator/main.py).
   Strings are modelled as lists of Unicode characters (`List Char`), which
   matches Python string indexing at the codepoint level.  The regex
   `[^0123456789]*([0123456789]+).*` used with `re.match` is modelled by the
   equivalent explicit scan: drop the maximal non-digit prefix, then take the
   maximal digit run.  Python's `str.casefold` is modelled as ASCII
   lowercasing (`Char.toLower`), which is faithful on the ASCII file
   extensions the program deals with. -/

namespace Numerator

/-- The straight single-quote character, written by code to avoid escape
    clutter. -/
def squote : Char := Char.ofNat 39

/-- Model of Python `str.casefold`, ASCII fragment. -/
def casefold (s : List Char) : List Char := s.map Char.toLower

/-- Embeds `add_padding` from src/numerator/main.py.  `match.start(1)` /
    `match.end(1)` of the regex delimit the first maximal ASCII digit run;
    `'0' * delta` yields the empty string when `delta` is negative, which is
    exactly truncated subtraction on `Nat`. -/
def add_padding (s : List Char) (padding : Nat) : List Char :=
  if (s.dropWhile (fun c => !c.isDigit)).isEmpty then
    s
  else
    let rest := s.dropWhile (fun c => !c.isDigit)
    let body := rest.takeWhile Char.isDigit
    s.takeWhile (fun c => !c.isDigit)
      ++ List.replicate (padding - body.length) '0'
      ++ body
      ++ rest.dropWhile Char.isDigit

/-- First maximal ASCII digit run of a string (what group 1 of the `DIGITS`
    regex captures); empty when the string holds no digit. -/
def firstRun (s : List Char) : List Char :=
  (s.dropWhile (fun c => !c.isDigit)).takeWhile Char.isDigit

/-- Embeds `calculate_padding` from src/numerator/main.py: fold over the
    names, taking the max with the captured digit-run length whenever the
    regex matches (i.e. whenever the name holds a digit). -/
def calculate_padding (names : List (List Char)) : Nat :=
  names.foldl
    (fun padding name =>
      if (name.dropWhile (fun c => !c.isDigit)).isEmpty then padding
      else max padding
        ((name.dropWhile (fun c => !c.isDigit)).takeWhile Char.isDigit).length)
    0

example : add_padding "2.jpg".toList 3 = "002.jpg".toList := by decide
example : add_padding "10.jpg".toList 3 = "010.jpg".toList := by decide
example : add_padding "abc.jpg".toList 3 = "abc.jpg".toList := by decide
example : add_padding "cam2-0007.jpg".toList 4 = "cam0002-0007.jpg".toList := by decide
example : calculate_padding ["1".toList, "23".toList, "456".toList] = 3 := by decide
example : calculate_padding ["a".toList, "b".toList] = 0 := by decide

/-- Fuel-driven worker for `pyReplace`; the fuel is the length of the
    scanned string, which suffices because every step consumes at least one
    character when the pattern is non-empty. -/
def pyReplaceAux (old new : List Char) : Nat → List Char → List Char
  | _, [] => []
  | 0, s => s
  | fuel + 1, c :: rest =>
    if old.isPrefixOf (c :: rest) then
      new ++ pyReplaceAux old new fuel ((c :: rest).drop old.length)
    else
      c :: pyReplaceAux old new fuel rest

/-- Model of Python `str.replace(old, new)`: replace every non-overlapping
    occurrence of `old`, scanning left to right.  With an empty `old`,
    Python inserts `new` before every character and once at the end. -/
def pyReplace (s old new : List Char) : List Char :=
  if old.isEmpty then
    new ++ s.flatMap (fun c => c :: new)
  else
    pyReplaceAux old new s.length s

example : pyReplace "foo_bar.jpg".toList "foo".toList "baz".toList
    = "baz_bar.jpg".toList := by decide
example : pyReplace "abc".toList [] "x".toList = "xaxbxcx".toList := by decide
example : pyReplace "aaa".toList "aa".toList "b".toList = "ba".toList := by decide

/-- Embeds `File.get_new_filename` from src/numerator/main.py at the string
    level: pad the full original filename, then apply every replacement pair
    in the mapping's iteration order, each on the previous result.  The
    Python dict is modelled as an association list in insertion order. -/
def get_new_filename (old_filename : List Char) (padding : Nat)
    (replace : List (List Char × List Char)) : List Char :=
  replace.foldl (fun acc kv => pyReplace acc kv.1 kv.2)
    (add_padding old_filename padding)

example : get_new_filename "foo_bar.jpg".toList 3
    [("foo".toList, "baz".toList), ("baz".toList, "qux".toList)]
    = "qux_bar.jpg".toList := by decide

/-- Embeds the `File` wrapper from src/numerator/main.py.  The owning
    directory path is dropped: every filesystem operation of the program
    stays inside the one scanned directory, so renames are recorded as
    (source-name, destination-name) pairs.  `filename`, `old_filename` and
    `new_filename` are the three attributes set in `File.__init__`. -/
structure File where
  filename : List Char
  old_filename : List Char
  new_filename : List Char
deriving DecidableEq, Repr

/-- Embeds `File.__init__`: all three name attributes start equal. -/
def mkFile (filename : List Char) : File :=
  ⟨filename, filename, filename⟩

/-- Model of Python `pathlib.PurePath` stem/suffix splitting for a plain
    filename: the suffix starts at the last dot provided that dot is neither
    the first character nor the last one; otherwise the suffix is empty and
    the stem is the whole name. -/
def pySplitExt (name : List Char) : List Char × List Char :=
  let rev := name.reverse
  let tail := rev.takeWhile (fun c => c != '.')
  match rev.dropWhile (fun c => c != '.') with
  | [] => (name, [])
  | _ :: stemRev =>
    if tail.isEmpty || stemRev.isEmpty then (name, [])
    else (stemRev.reverse, '.' :: tail.reverse)

example : pySplitExt "a.jpg".toList = ("a".toList, ".jpg".toList) := by decide
example : pySplitExt "archive.tar.gz".toList
    = ("archive.tar".toList, ".gz".toList) := by decide
example : pySplitExt ".gitignore".toList = (".gitignore".toList, []) := by decide
example : pySplitExt "name.".toList = ("name.".toList, []) := by decide
example : pySplitExt "plain".toList = ("plain".toList, []) := by decide

/-- Embeds the cached property `File.name`: `Path(self.filename).stem`. -/
def File.name (f : File) : List Char := (pySplitExt f.filename).1

/-- Embeds the cached property `File.ext`: `Path(self.filename).suffix`
    with a leading dot removed when present. -/
def File.ext (f : File) : List Char :=
  match (pySplitExt f.filename).2 with
  | '.' :: rest => rest
  | s => s

/-- Embeds `File.looks_like_target`: the casefolded extension is non-empty
    and equals the casefolded majority extension. -/
def looks_like_target (f : File) (majority : List Char) : Bool :=
  let case_folded := casefold (File.ext f)
  !case_folded.isEmpty && case_folded == casefold majority

example : looks_like_target (mkFile "IMG.JPG".toList) "jpg".toList = true := by decide
example : looks_like_target (mkFile "readme.txt".toList) "jpg".toList = false := by decide
example : looks_like_target (mkFile "noext".toList) "jpg".toList = false := by decide

/-- Embeds `File.rename_to_pattern`.  Returns the updated file object, the
    boolean result, and the filesystem rename requests issued (source name,
    destination name) — zero or one of them.  The comparison and the rename
    source are `old_filename`, exactly as in the code. -/
def rename_to_pattern (f : File) (padding : Nat)
    (replace : List (List Char × List Char)) :
    File × Bool × List (List Char × List Char) :=
  let new_filename := get_new_filename f.old_filename padding replace
  if new_filename ≠ f.old_filename then
    ({ f with new_filename := new_filename }, true, [(f.old_filename, new_filename)])
  else
    (f, false, [])

/-- The report line `run` passes to its callback for a renamed file: a tab,
    then `Renamed <old> to <new>`. -/
def renamedLine (old new : List Char) : List Char :=
  '\t' :: ("Renamed ".toList ++ old ++ " to ".toList ++ new)

/-- Loop body of `run`: process one file, extending the accumulated rename
    requests and report lines exactly when the file matches the majority
    extension and `rename_to_pattern` answers `true`. -/
def runStep (majority : List Char) (padding : Nat)
    (replace : List (List Char × List Char))
    (acc : List (List Char × List Char) × List (List Char)) (f : File) :
    List (List Char × List Char) × List (List Char) :=
  if looks_like_target f majority then
    let res := rename_to_pattern f padding replace
    if res.2.1 then
      (acc.1 ++ res.2.2,
       acc.2 ++ [renamedLine res.1.old_filename res.1.new_filename])
    else acc
  else acc

/-- Embeds `run` from src/numerator/main.py.  The traversal is modelled as a
    fold over the scanned files in stored order; the first component
    collects the filesystem rename requests and the second the lines handed
    to the callback. -/
def run (files : List File) (majority : List Char) (padding : Nat)
    (replace : List (List Char × List Char)) :
    List (List Char × List Char) × List (List Char) :=
  files.foldl (runStep majority padding replace) ([], [])

/-- Embeds the list comprehension inside `Folder.majority`: casefolded
    extensions of the scanned files, keeping only the non-empty ones. -/
def extsOf (files : List File) : List (List Char) :=
  (files.map (fun f => casefold (File.ext f))).filter (fun e => !e.isEmpty)

/-- Append a key to the list of seen keys unless it is already present;
    folding this over a list yields its distinct values in first-occurrence
    order, the iteration order of a Python `Counter`. -/
def insertKey (ks : List (List Char)) (x : List Char) : List (List Char) :=
  if x ∈ ks then ks else ks ++ [x]

/-- Distinct values of a list in first-occurrence order (the key order of
    `collections.Counter` built from it). -/
def distinctKeys (l : List (List Char)) : List (List Char) :=
  l.foldl insertKey []

/-- Scan the counter keys keeping the current best, replaced only by a key
    with a strictly larger count: this is exactly the element
    `Counter.most_common(1)` puts first, because `most_common` sorts stably
    by descending count over the insertion-ordered items. -/
def selectMax (exts : List (List Char)) :
    Option (List Char) → List (List Char) → Option (List Char)
  | acc, [] => acc
  | none, k :: ks => selectMax exts (some k) ks
  | some b, k :: ks =>
    if exts.count b < exts.count k then selectMax exts (some k) ks
    else selectMax exts (some b) ks

/-- Embeds the cached property `Folder.majority`:
    `Counter(extensions).most_common(1)[0][0]`.  `none` models the
    `IndexError` raised when `extensions` is empty (the `[0]` subscript on
    an empty `most_common` list). -/
def majority (files : List File) : Option (List Char) :=
  selectMax (extsOf files) none (distinctKeys (extsOf files))

example : majority [mkFile "a.jpg".toList, mkFile "b.jpg".toList,
    mkFile "c.png".toList] = some "jpg".toList := by decide
example : majority [mkFile "c.png".toList, mkFile "a.jpg".toList,
    mkFile "b.jpg".toList] = some "jpg".toList := by decide
example : majority [mkFile "a.png".toList, mkFile "b.jpg".toList]
    = some "png".toList := by decide
example : majority [mkFile "noext".toList] = none := by decide
example : majority [] = none := by decide
example : majority [mkFile "IMG.JPG".toList, mkFile "b.jpg".toList,
    mkFile "x.png".toList] = some "jpg".toList := by decide

/-- Embeds the cached property `Folder.padding`: the padding width computed
    over the stems of all scanned files. -/
def folder_padding (files : List File) : Nat :=
  calculate_padding (files.map File.name)

example : folder_padding [mkFile "1.jpg".toList, mkFile "2.jpg".toList,
    mkFile "10.jpg".toList, mkFile "readme.txt".toList] = 2 := by decide

/-- Model of Python `str.split(sep)` for a one-character separator: the
    pieces between the separator occurrences, with empty pieces kept. -/
def pySplit (sep : Char) : List Char → List (List Char)
  | [] => [[]]
  | c :: rest =>
    if c = sep then [] :: pySplit sep rest
    else
      match pySplit sep rest with
      | [] => [[c]]
      | p :: ps => (c :: p) :: ps

example : pySplit '=' "source=target".toList
    = ["source".toList, "target".toList] := by decide
example : pySplit '=' "abc".toList = ["abc".toList] := by decide
example : pySplit '=' "a=b=c".toList
    = ["a".toList, "b".toList, "c".toList] := by decide
example : pySplit '=' "=x".toList = [[], "x".toList] := by decide
example : pySplit '=' [] = [[]] := by decide

/-- Model of Python `str.strip(ch)` for a one-character set: remove every
    leading and every trailing occurrence of `ch`. -/
def pyStrip (ch : Char) (s : List Char) : List Char :=
  (((s.dropWhile (fun c => c = ch)).reverse.dropWhile (fun c => c = ch)).reverse)

/-- Embeds the quote stripping of `get_config`:
    `part.strip("'").strip('"')`. -/
def stripQuotes (s : List Char) : List Char :=
  pyStrip '"' (pyStrip squote s)

example : stripQuotes [squote, 'a', squote] = ['a'] := by decide
example : stripQuotes [squote, squote, 'a', squote, squote] = ['a'] := by decide
example : stripQuotes ['"', squote, 'a', squote, '"'] = [squote, 'a', squote] := by decide
example : stripQuotes "plain".toList = "plain".toList := by decide

/-- Embeds the handling of one `--replace` value in `get_config`: split on
    every `=`; accept exactly two pieces, strip quotes from each; `none`
    models the diagnostic-and-`sys.exit(1)` path. -/
def parseReplaceValue (s : List Char) : Option (List Char × List Char) :=
  match pySplit '=' s with
  | [k, v] => some (stripQuotes k, stripQuotes v)
  | _ => none

example : parseReplaceValue "foo=baz".toList
    = some ("foo".toList, "baz".toList) := by decide
example : parseReplaceValue "nosep".toList = none := by decide
example : parseReplaceValue "a=b=c".toList = none := by decide
example : parseReplaceValue "=x".toList = some ([], "x".toList) := by decide

/-- Python dict insertion: overwrite the value in place when the key exists,
    else append the pair, preserving insertion order. -/
def dictInsert (d : List (List Char × List Char)) (k v : List Char) :
    List (List Char × List Char) :=
  if d.any (fun kv => kv.1 == k) then
    d.map (fun kv => if kv.1 = k then (k, v) else kv)
  else d ++ [(k, v)]

/-- Folds the raw `--replace` values into the replacement dict, stopping
    with `none` at the first malformed value, as the loop in `get_config`
    exits the process there. -/
def buildReplace : List (List Char) → List (List Char × List Char) →
    Option (List (List Char × List Char))
  | [], acc => some acc
  | a :: rest, acc =>
    match parseReplaceValue a with
    | none => none
    | some (k, v) => buildReplace rest (dictInsert acc k v)

/-- Embeds `get_config` after argument parsing: `pathExists` models the
    `path.exists()` filesystem check on the resolved target path, and
    `replaceArgs` the collected raw `--replace` values.  `none` models the
    two diagnostic-and-`sys.exit(1)` paths (missing path, malformed replace
    value); `some` carries the replacement dict of the returned immutable
    `Config` (its path field is the checked path, unmodelled here). -/
def get_config (pathExists : Bool) (replaceArgs : List (List Char)) :
    Option (List (List Char × List Char)) :=
  if pathExists then buildReplace replaceArgs [] else none

example : get_config true ["foo=baz".toList, "baz=qux".toList]
    = some [("foo".toList, "baz".toList), ("baz".toList, "qux".toList)] := by decide
example : get_config false [] = none := by decide
example : get_config true ["broken".toList] = none := by decide
example : get_config true ["a=b".toList, "a=c".toList]
    = some [("a".toList, "c".toList)] := by decide

example :
    run [mkFile "1.jpg".toList, mkFile "2.jpg".toList, mkFile "10.jpg".toList,
      mkFile "readme.txt".toList] "jpg".toList 2 []
    = ([("1.jpg".toList, "01.jpg".toList), ("2.jpg".toList, "02.jpg".toList)],
       [renamedLine "1.jpg".toList "01.jpg".toList,
        renamedLine "2.jpg".toList "02.jpg".toList]) := by decide

section Theorems

/-- Splitting lemma: when every character of `pre` satisfies the predicate
    and the head of `rest` (if any) falsifies it, `takeWhile` over the
    concatenation returns exactly `pre` and `dropWhile` exactly `rest`. -/
lemma takeWhile_dropWhile_of_append (p : Char → Bool) :
    ∀ (pre rest : List Char), (∀ c ∈ pre, p c = true) →
      (∀ x, rest.head? = some x → p x = false) →
      (pre ++ rest).takeWhile p = pre ∧ (pre ++ rest).dropWhile p = rest := by
  intro pre
  induction pre with
  | nil =>
    intro rest _ hrest
    cases rest with
    | nil => simp
    | cons x xs =>
      have hx := hrest x rfl
      simp [List.takeWhile, List.dropWhile, hx]
  | cons a t ih =>
    intro rest hpre hrest
    have ha : p a = true := hpre a (by simp)
    have iht := ih rest (fun c hc => hpre c (by simp [hc])) hrest
    simp [List.takeWhile, List.dropWhile, ha, iht.1, iht.2]

/-- C1: `add_padding` returns `name` unchanged when it holds no ASCII digit;
    otherwise, for the (unique) decomposition `pre ++ body ++ suff` with a
    digit-free prefix, a non-empty maximal digit run, and a suffix not
    starting with a digit, it returns
    `pre ++ zeros (targetWidth - length body) ++ body ++ suff`; it never
    truncates, and leaves the name unchanged once the run is already at
    least `targetWidth` long. -/
theorem C1_add_padding_correct (s : List Char) (w : Nat) :
    ((∀ c ∈ s, c.isDigit = false) → add_padding s w = s) ∧
    s.length ≤ (add_padding s w).length ∧
    (∀ pre body suff, s = pre ++ body ++ suff →
      (∀ c ∈ pre, c.isDigit = false) →
      body ≠ [] →
      (∀ c ∈ body, c.isDigit = true) →
      (∀ x, suff.head? = some x → x.isDigit = false) →
      add_padding s w
        = pre ++ List.replicate (w - body.length) '0' ++ body ++ suff ∧
      (w ≤ body.length → add_padding s w = s)) := by
  refine ⟨?_, ?_, ?_⟩
  · intro hnd
    have h : s.dropWhile (fun c => !c.isDigit) = [] := by
      rw [List.dropWhile_eq_nil_iff]
      intro x hx
      simp [hnd x hx]
    simp [add_padding, h]
  · by_cases h : (s.dropWhile (fun c => !c.isDigit)).isEmpty = true
    · simp [add_padding, h]
    · have hs : (s.takeWhile (fun c => !c.isDigit)).length
          + (s.dropWhile (fun c => !c.isDigit)).length = s.length := by
        conv_rhs =>
          rw [← List.takeWhile_append_dropWhile (p := fun c => !c.isDigit) (l := s)]
        rw [List.length_append]
      have hr : ((s.dropWhile (fun c => !c.isDigit)).takeWhile Char.isDigit).length
          + ((s.dropWhile (fun c => !c.isDigit)).dropWhile Char.isDigit).length
          = (s.dropWhile (fun c => !c.isDigit)).length := by
        conv_rhs =>
          rw [← List.takeWhile_append_dropWhile (p := Char.isDigit)
            (l := s.dropWhile (fun c => !c.isDigit))]
        rw [List.length_append]
      simp only [add_padding, h, if_false, Bool.false_eq_true]
      simp only [List.length_append, List.length_replicate]
      omega
  · intro pre body suff hdecomp hpre hbody_ne hbody hsuff
    have hhead : ∀ x, (body ++ suff).head? = some x →
        (fun c => !c.isDigit) x = false := by
      intro x hx
      cases body with
      | nil => exact absurd rfl hbody_ne
      | cons b bs =>
        simp only [List.cons_append, List.head?_cons, Option.some.injEq] at hx
        subst hx
        simp [hbody b (by simp)]
    have h1 := takeWhile_dropWhile_of_append (fun c => !c.isDigit) pre (body ++ suff)
      (fun c hc => by simp [hpre c hc]) hhead
    have h2 := takeWhile_dropWhile_of_append Char.isDigit body suff hbody hsuff
    have ht : s.takeWhile (fun c => !c.isDigit) = pre := by
      rw [hdecomp, List.append_assoc]; exact h1.1
    have hd : s.dropWhile (fun c => !c.isDigit) = body ++ suff := by
      rw [hdecomp, List.append_assoc]; exact h1.2
    have hdne : ¬ (s.dropWhile (fun c => !c.isDigit)).isEmpty = true := by
      rw [hd]
      cases body with
      | nil => exact absurd rfl hbody_ne
      | cons b bs => simp
    have hmain : add_padding s w
        = pre ++ List.replicate (w - body.length) '0' ++ body ++ suff := by
      unfold add_padding
      rw [if_neg hdne, ht, hd]
      simp only [h2.1, h2.2]
    refine ⟨hmain, ?_⟩
    intro hw
    have hz : w - body.length = 0 := by omega
    rw [hmain, hz]
    simp [hdecomp]

/-- C1 witness: concrete instantiation, padding and already-wide-enough
    cases. -/
theorem C1_add_padding_witness :
    add_padding "ab12c3".toList 4 = "ab0012c3".toList ∧
    add_padding "ab12c3".toList 2 = "ab12c3".toList := by
  constructor
  · exact (((C1_add_padding_correct "ab12c3".toList 4).2.2
      "ab".toList "12".toList "c3".toList (by decide) (by decide) (by decide)
      (by decide) (by decide)).1).trans (by decide)
  · exact ((C1_add_padding_correct "ab12c3".toList 2).2.2
      "ab".toList "12".toList "c3".toList (by decide) (by decide) (by decide)
      (by decide) (by decide)).2 (by decide)

/-- The loop body of `calculate_padding` is the max with the first-digit-run
    length (names with no digit contribute a zero, leaving the max alone). -/
lemma calc_step_eq (acc : Nat) (name : List Char) :
    (if (name.dropWhile (fun c => !c.isDigit)).isEmpty then acc
     else max acc
       ((name.dropWhile (fun c => !c.isDigit)).takeWhile Char.isDigit).length)
    = max acc (firstRun name).length := by
  by_cases h : (name.dropWhile (fun c => !c.isDigit)).isEmpty = true
  · have he : name.dropWhile (fun c => !c.isDigit) = [] :=
      List.isEmpty_iff.mp h
    simp [firstRun, he, h]
  · simp [firstRun, h]

/-- Behaviour of a left fold that takes a running maximum: the result bounds
    the seed and every contribution, and is attained by the seed or by some
    element. -/
lemma foldl_max_spec (g : List Char → Nat) (names : List (List Char)) :
    ∀ acc : Nat,
      acc ≤ names.foldl (fun a n => max a (g n)) acc ∧
      (∀ n ∈ names, g n ≤ names.foldl (fun a n => max a (g n)) acc) ∧
      (names.foldl (fun a n => max a (g n)) acc = acc ∨
        ∃ n ∈ names, names.foldl (fun a n => max a (g n)) acc = g n) := by
  induction names with
  | nil => intro acc; simp
  | cons x xs ih =>
    intro acc
    have h := ih (max acc (g x))
    refine ⟨?_, ?_, ?_⟩
    · exact le_trans (le_max_left _ _) h.1
    · intro n hn
      rcases List.mem_cons.mp hn with rfl | hn'
      · exact le_trans (le_max_right _ _) h.1
      · exact h.2.1 n hn'
    · rcases h.2.2 with heq | ⟨n, hn, heq⟩
      · rcases le_total (g x) acc with hle | hle
        · left
          rw [List.foldl_cons, heq, max_eq_left hle]
        · right
          exact ⟨x, List.mem_cons_self x xs, by rw [List.foldl_cons, heq, max_eq_right hle]⟩
      · right
        exact ⟨n, List.mem_cons_of_mem x hn, heq⟩

/-- Pointwise-equal fold functions fold alike. -/
lemma foldl_ext_nat (f g : Nat → List Char → Nat)
    (h : ∀ a n, f a n = g a n) :
    ∀ (l : List (List Char)) (a : Nat), l.foldl f a = l.foldl g a := by
  intro l
  induction l with
  | nil => intro a; rfl
  | cons x xs ih =>
    intro a
    rw [List.foldl_cons, List.foldl_cons, h a x, ih]

/-- Rewriting `calculate_padding` as a fold of maxima of first-digit-run
    lengths. -/
lemma calculate_padding_eq (names : List (List Char)) :
    calculate_padding names
      = names.foldl (fun a n => max a (firstRun n).length) 0 := by
  unfold calculate_padding
  exact foldl_ext_nat _ _ calc_step_eq names 0

/-- C2: `calculate_padding` returns the maximum first-digit-run length over
    the names, `0` on an empty collection or when no name holds a digit;
    with the two concrete evaluations from the specification. -/
theorem C2_calculate_padding_correct (names : List (List Char)) :
    (∀ n ∈ names, (firstRun n).length ≤ calculate_padding names) ∧
    (calculate_padding names = 0 ∨
      ∃ n ∈ names, calculate_padding names = (firstRun n).length) ∧
    ((∀ n ∈ names, firstRun n = []) → calculate_padding names = 0) ∧
    calculate_padding ["1".toList, "23".toList, "456".toList] = 3 ∧
    calculate_padding ["a".toList, "b".toList] = 0 := by
  have h := foldl_max_spec (fun n => (firstRun n).length) names 0
  rw [← calculate_padding_eq] at h
  refine ⟨h.2.1, h.2.2, ?_, by decide, by decide⟩
  intro hall
  rcases h.2.2 with heq | ⟨n, hn, heq⟩
  · exact heq
  · rw [heq, hall n hn]
    rfl

/-- C2 witness: concrete instantiation of the bound. -/
theorem C2_calculate_padding_witness :
    (firstRun "x7".toList).length
      ≤ calculate_padding ["ab12".toList, "x7".toList] :=
  (C2_calculate_padding_correct ["ab12".toList, "x7".toList]).1
    "x7".toList (by decide)

/-- C3: `get_new_filename` pads the full original filename and then applies
    each replacement pair, in the mapping's iteration order, as a literal
    all-occurrences substitution over the previous step's output — a total,
    pure function; the unfolding of the first step exhibits the sequential
    (not simultaneous) application, and the specification's example
    evaluates to `qux_bar.jpg`. -/
theorem C3_get_new_filename_sequential (f : File) (p : Nat)
    (r : List (List Char × List Char)) :
    get_new_filename f.old_filename p r
      = r.foldl (fun acc kv => pyReplace acc kv.1 kv.2)
          (add_padding f.old_filename p) ∧
    (∀ k v rest, get_new_filename f.old_filename p ((k, v) :: rest)
      = rest.foldl (fun acc kv => pyReplace acc kv.1 kv.2)
          (pyReplace (add_padding f.old_filename p) k v)) ∧
    get_new_filename (mkFile "foo_bar.jpg".toList).old_filename 3
      [("foo".toList, "baz".toList), ("baz".toList, "qux".toList)]
      = "qux_bar.jpg".toList :=
  ⟨rfl, fun _ _ _ => rfl, by decide⟩

/-- C10: a `--replace` value with an empty source part (`=x`) is accepted
    and stored as the mapping entry from the empty string; an
    all-occurrences substitution with an empty source then inserts the
    target before every character of the padded filename and once at its
    end. -/
theorem C10_empty_source_replace (t name : List Char) (p : Nat) :
    get_config true ["=x".toList] = some [([], "x".toList)] ∧
    pyReplace name [] t = t ++ name.flatMap (fun c => c :: t) ∧
    get_new_filename name p [([], t)]
      = t ++ (add_padding name p).flatMap (fun c => c :: t) ∧
    get_new_filename "ab".toList 7 [([], "x".toList)] = "xaxbx".toList :=
  ⟨by decide, rfl, rfl, by decide⟩

/-- A file looks like a target exactly when its extension is non-empty and
    casefold-equal to the majority extension. -/
lemma looks_like_target_iff (f : File) (m : List Char) :
    looks_like_target f m = true ↔
      (File.ext f ≠ [] ∧ casefold (File.ext f) = casefold m) := by
  unfold looks_like_target
  cases he : File.ext f with
  | nil => simp [casefold]
  | cons a t => simp [casefold]

/-- Unfolding of `rename_to_pattern` when the computed name differs from
    `old_filename`: the file records the new name, the answer is `true`, and
    one rename request from the original name is issued. -/
lemma rename_to_pattern_eq_pos (f : File) (p : Nat)
    (r : List (List Char × List Char))
    (h : get_new_filename f.old_filename p r ≠ f.old_filename) :
    rename_to_pattern f p r
      = ({ f with new_filename := get_new_filename f.old_filename p r }, true,
         [(f.old_filename, get_new_filename f.old_filename p r)]) := by
  simp only [rename_to_pattern]
  rw [if_pos h]

/-- Unfolding of `rename_to_pattern` when the computed name equals
    `old_filename`: nothing happens and the answer is `false`. -/
lemma rename_to_pattern_eq_neg (f : File) (p : Nat)
    (r : List (List Char × List Char))
    (h : get_new_filename f.old_filename p r = f.old_filename) :
    rename_to_pattern f p r = (f, false, []) := by
  simp only [rename_to_pattern]
  rw [if_neg (fun hn => hn h)]

/-- Generalised-accumulator description of the `run` fold: each processed
    file contributes its rename request and report line exactly when it
    matches the majority extension and its computed name differs. -/
lemma run_aux (m : List Char) (p : Nat) (r : List (List Char × List Char)) :
    ∀ (files : List File) (acc : List (List Char × List Char) × List (List Char)),
      files.foldl (runStep m p r) acc
        = (acc.1 ++ files.filterMap (fun f =>
             if File.ext f ≠ [] ∧ casefold (File.ext f) = casefold m ∧
                 get_new_filename f.old_filename p r ≠ f.old_filename
             then some (f.old_filename, get_new_filename f.old_filename p r)
             else none),
           acc.2 ++ files.filterMap (fun f =>
             if File.ext f ≠ [] ∧ casefold (File.ext f) = casefold m ∧
                 get_new_filename f.old_filename p r ≠ f.old_filename
             then some (renamedLine f.old_filename
               (get_new_filename f.old_filename p r))
             else none)) := by
  intro files
  induction files with
  | nil => intro acc; simp
  | cons f fs ih =>
    intro acc
    rw [List.foldl_cons, ih]
    by_cases htgt : looks_like_target f m = true
    · by_cases hnew : get_new_filename f.old_filename p r ≠ f.old_filename
      · have hcond : File.ext f ≠ [] ∧ casefold (File.ext f) = casefold m ∧
            get_new_filename f.old_filename p r ≠ f.old_filename :=
          ⟨((looks_like_target_iff f m).mp htgt).1,
           ((looks_like_target_iff f m).mp htgt).2, hnew⟩
        have hstep : runStep m p r acc f
            = (acc.1 ++ [(f.old_filename, get_new_filename f.old_filename p r)],
               acc.2 ++ [renamedLine f.old_filename
                 (get_new_filename f.old_filename p r)]) := by
          unfold runStep
          rw [if_pos htgt, rename_to_pattern_eq_pos f p r hnew]
          simp
        rw [hstep]
        simp [List.filterMap_cons, hcond, List.append_assoc]
      · have heq : get_new_filename f.old_filename p r = f.old_filename :=
          not_not.mp hnew
        have hcond : ¬ (File.ext f ≠ [] ∧ casefold (File.ext f) = casefold m ∧
            get_new_filename f.old_filename p r ≠ f.old_filename) :=
          fun hc => hc.2.2 heq
        have hstep : runStep m p r acc f = acc := by
          unfold runStep
          rw [if_pos htgt, rename_to_pattern_eq_neg f p r heq]
          simp
        rw [hstep]
        simp [List.filterMap_cons, hcond]
    · have hcond : ¬ (File.ext f ≠ [] ∧ casefold (File.ext f) = casefold m ∧
          get_new_filename f.old_filename p r ≠ f.old_filename) :=
        fun hc => htgt ((looks_like_target_iff f m).mpr ⟨hc.1, hc.2.1⟩)
      have hstep : runStep m p r acc f = acc := by
        unfold runStep
        rw [if_neg htgt]
      rw [hstep]
      simp [List.filterMap_cons, hcond]

/-- C4: iterating the scanned entries in stored order, `run` issues a
    filesystem rename for a file — and emits exactly one report line, a tab
    followed by `Renamed old to new` — precisely when the file's extension
    is non-empty, casefold-equal to the majority extension, and the computed
    new name differs from the current (`old_filename`) name; every other
    file contributes neither a rename request nor a report line. -/
theorem C4_run_renames_iff (files : List File) (m : List Char) (p : Nat)
    (r : List (List Char × List Char)) :
    run files m p r
      = (files.filterMap (fun f =>
           if File.ext f ≠ [] ∧ casefold (File.ext f) = casefold m ∧
               get_new_filename f.old_filename p r ≠ f.old_filename
           then some (f.old_filename, get_new_filename f.old_filename p r)
           else none),
         files.filterMap (fun f =>
           if File.ext f ≠ [] ∧ casefold (File.ext f) = casefold m ∧
               get_new_filename f.old_filename p r ≠ f.old_filename
           then some (renamedLine f.old_filename
             (get_new_filename f.old_filename p r))
           else none)) := by
  unfold run
  rw [run_aux]
  simp

/-- C4 witness: the end-to-end scenario of the specification, evaluated
    through the theorem. -/
theorem C4_run_witness :
    run [mkFile "1.jpg".toList, mkFile "2.jpg".toList, mkFile "10.jpg".toList,
        mkFile "readme.txt".toList] "jpg".toList 2 []
      = ([("1.jpg".toList, "01.jpg".toList), ("2.jpg".toList, "02.jpg".toList)],
         [renamedLine "1.jpg".toList "01.jpg".toList,
          renamedLine "2.jpg".toList "02.jpg".toList]) := by
  rw [C4_run_renames_iff]
  decide

/-- Behaviour of the `selectMax` scan seeded with `b`: it always answers
    some key `r` drawn from `b` or the scanned keys, `r`'s count bounds the
    seed's and every scanned key's count, and every key strictly before `r`
    in the seeded scan order has a strictly smaller count (the stable
    tie-break of `Counter.most_common`). -/
lemma selectMax_spec (exts : List (List Char)) :
    ∀ (ks : List (List Char)) (b : List Char),
      ∃ r, selectMax exts (some b) ks = some r ∧
        (r = b ∨ r ∈ ks) ∧
        exts.count b ≤ exts.count r ∧
        (∀ k ∈ ks, exts.count k ≤ exts.count r) ∧
        (∀ k ∈ (b :: ks).takeWhile (fun x => x != r),
          exts.count k < exts.count r) := by
  intro ks
  induction ks with
  | nil =>
    intro b
    refine ⟨b, rfl, Or.inl rfl, le_refl _, by simp, ?_⟩
    intro k hk
    simp [List.takeWhile] at hk
  | cons k ks ih =>
    intro b
    by_cases h : exts.count b < exts.count k
    · obtain ⟨r, hsel, hmem, hle, hall, htw⟩ := ih k
      have hbr : exts.count b < exts.count r := lt_of_lt_of_le h hle
      have hbne : b ≠ r := fun e => by rw [e] at hbr; exact lt_irrefl _ hbr
      refine ⟨r, ?_, ?_, le_of_lt hbr, ?_, ?_⟩
      · simpa [selectMax, h] using hsel
      · right
        rcases hmem with rfl | hm
        · exact List.mem_cons_self _ _
        · exact List.mem_cons_of_mem _ hm
      · intro j hj
        rcases List.mem_cons.mp hj with rfl | hj'
        · exact hle
        · exact hall j hj'
      · intro j hj
        rw [List.takeWhile_cons] at hj
        have hbneb : (b != r) = true := bne_iff_ne.mpr hbne
        rw [hbneb] at hj
        simp only [if_true] at hj
        rcases List.mem_cons.mp hj with rfl | hj'
        · exact hbr
        · exact htw j hj'
    · obtain ⟨r, hsel, hmem, hle, hall, htw⟩ := ih b
      have hkb : exts.count k ≤ exts.count b := not_lt.mp h
      refine ⟨r, ?_, ?_, hle, ?_, ?_⟩
      · simpa [selectMax, h] using hsel
      · rcases hmem with rfl | hm
        · exact Or.inl rfl
        · exact Or.inr (List.mem_cons_of_mem _ hm)
      · intro j hj
        rcases List.mem_cons.mp hj with rfl | hj'
        · exact le_trans hkb hle
        · exact hall j hj'
      · by_cases hbr : b = r
        · subst hbr
          intro j hj
          rw [List.takeWhile_cons] at hj
          simp at hj
        · have hbr' : (b != r) = true := bne_iff_ne.mpr hbr
          have hbcount : exts.count b < exts.count r := by
            refine htw b ?_
            rw [List.takeWhile_cons, hbr']
            simp
          intro j hj
          rw [List.takeWhile_cons, hbr'] at hj
          simp only [if_true] at hj
          rcases List.mem_cons.mp hj with rfl | hj'
          · exact hbcount
          · by_cases hkr : k = r
            · subst hkr
              rw [List.takeWhile_cons] at hj'
              simp at hj'
            · have hkr' : (k != r) = true := bne_iff_ne.mpr hkr
              rw [List.takeWhile_cons, hkr'] at hj'
              simp only [if_true] at hj'
              rcases List.mem_cons.mp hj' with rfl | hj''
              · exact lt_of_le_of_lt hkb hbcount
              · refine htw j ?_
                rw [List.takeWhile_cons, hbr']
                simp only [if_true]
                exact List.mem_cons_of_mem _ hj''

/-- Folding `insertKey` collects exactly the seed and the scanned values. -/
lemma mem_foldl_insertKey :
    ∀ (l acc : List (List Char)) (x : List Char),
      x ∈ l.foldl insertKey acc ↔ x ∈ acc ∨ x ∈ l := by
  intro l
  induction l with
  | nil => intro acc x; simp
  | cons a t ih =>
    intro acc x
    rw [List.foldl_cons, ih]
    unfold insertKey
    by_cases h : a ∈ acc
    · rw [if_pos h]
      constructor
      · rintro (hx | hx)
        · exact Or.inl hx
        · exact Or.inr (List.mem_cons_of_mem _ hx)
      · rintro (hx | hx)
        · exact Or.inl hx
        · rcases List.mem_cons.mp hx with rfl | hx'
          · exact Or.inl h
          · exact Or.inr hx'
    · rw [if_neg h]
      simp only [List.mem_append, List.mem_singleton, List.mem_cons]
      tauto

/-- Membership in `distinctKeys` is membership in the original list. -/
lemma mem_distinctKeys (l : List (List Char)) (x : List Char) :
    x ∈ distinctKeys l ↔ x ∈ l := by
  unfold distinctKeys
  rw [mem_foldl_insertKey]
  simp

/-- A non-empty list has non-empty distinct keys. -/
lemma distinctKeys_ne_nil {l : List (List Char)} (h : l ≠ []) :
    distinctKeys l ≠ [] := by
  cases l with
  | nil => exact absurd rfl h
  | cons a t =>
    intro he
    have ha : a ∈ distinctKeys (a :: t) :=
      (mem_distinctKeys _ _).mpr (List.mem_cons_self _ _)
    rw [he] at ha
    exact (List.not_mem_nil a) ha

/-- Main property of `majority`: as soon as one scanned file has a
    non-empty extension, the majority exists, is one of the collected
    casefolded extensions, has maximal count, and beats every key collected
    before it in first-encounter order. -/
lemma majority_spec_aux (files : List File)
    (hne : ∃ f ∈ files, File.ext f ≠ []) :
    ∃ m, majority files = some m ∧
      m ∈ extsOf files ∧
      (∀ k ∈ extsOf files,
        (extsOf files).count k ≤ (extsOf files).count m) ∧
      (∀ k ∈ (distinctKeys (extsOf files)).takeWhile (fun x => x != m),
        (extsOf files).count k < (extsOf files).count m) := by
  obtain ⟨f, hf, hfe⟩ := hne
  have hmem : casefold (File.ext f) ∈ extsOf files := by
    unfold extsOf
    rw [List.mem_filter]
    refine ⟨List.mem_map_of_mem _ hf, ?_⟩
    cases he : File.ext f with
    | nil => exact absurd he hfe
    | cons a t => simp [casefold, he]
  have hexts : extsOf files ≠ [] := by
    intro h
    rw [h] at hmem
    exact (List.not_mem_nil _) hmem
  have hkeys := distinctKeys_ne_nil hexts
  cases hk : distinctKeys (extsOf files) with
  | nil => exact absurd hk hkeys
  | cons k ks =>
    obtain ⟨r, hsel, hmem', hle, hall, htw⟩ := selectMax_spec (extsOf files) ks k
    refine ⟨r, ?_, ?_, ?_, ?_⟩
    · unfold majority
      rw [hk]
      simpa [selectMax] using hsel
    · have hr : r ∈ distinctKeys (extsOf files) := by
        rw [hk]
        rcases hmem' with rfl | hm
        · exact List.mem_cons_self _ _
        · exact List.mem_cons_of_mem _ hm
      exact (mem_distinctKeys _ _).mp hr
    · intro j hj
      have hj' : j ∈ distinctKeys (extsOf files) := (mem_distinctKeys _ _).mpr hj
      rw [hk] at hj'
      rcases List.mem_cons.mp hj' with rfl | hm
      · exact hle
      · exact hall j hm
    · exact htw

/-- C5: when at least one scanned file has a non-empty extension, the
    majority extension is the casefolded extension value with the highest
    frequency among the non-empty casefolded extensions, ties resolved in
    favour of the value first encountered in scan order. -/
theorem C5_majority_correct (files : List File)
    (hne : ∃ f ∈ files, File.ext f ≠ []) :
    ∃ m, majority files = some m ∧
      m ∈ extsOf files ∧
      (∀ k ∈ extsOf files,
        (extsOf files).count k ≤ (extsOf files).count m) ∧
      (∀ k ∈ (distinctKeys (extsOf files)).takeWhile (fun x => x != m),
        (extsOf files).count k < (extsOf files).count m) :=
  majority_spec_aux files hne

/-- C5 witness: a tie between `jpg` and `png` is resolved in favour of
    `jpg`, first encountered in scan order. -/
theorem C5_majority_witness :
    ∃ m, majority [mkFile "a.jpg".toList, mkFile "b.png".toList,
        mkFile "c.png".toList, mkFile "d.jpg".toList] = some m ∧
      m ∈ extsOf [mkFile "a.jpg".toList, mkFile "b.png".toList,
        mkFile "c.png".toList, mkFile "d.jpg".toList] ∧
      (∀ k ∈ extsOf [mkFile "a.jpg".toList, mkFile "b.png".toList,
          mkFile "c.png".toList, mkFile "d.jpg".toList],
        (extsOf [mkFile "a.jpg".toList, mkFile "b.png".toList,
          mkFile "c.png".toList, mkFile "d.jpg".toList]).count k
          ≤ (extsOf [mkFile "a.jpg".toList, mkFile "b.png".toList,
            mkFile "c.png".toList, mkFile "d.jpg".toList]).count m) ∧
      (∀ k ∈ (distinctKeys (extsOf [mkFile "a.jpg".toList, mkFile "b.png".toList,
          mkFile "c.png".toList, mkFile "d.jpg".toList])).takeWhile
            (fun x => x != m),
        (extsOf [mkFile "a.jpg".toList, mkFile "b.png".toList,
          mkFile "c.png".toList, mkFile "d.jpg".toList]).count k
          < (extsOf [mkFile "a.jpg".toList, mkFile "b.png".toList,
            mkFile "c.png".toList, mkFile "d.jpg".toList]).count m) :=
  C5_majority_correct _ (by decide)

/-- C6: the majority computation answers `none` — modelling the
    `IndexError` crash of `most_common(1)[0]`, not a silent default —
    exactly when no scanned file has a non-empty extension. -/
theorem C6_majority_none_iff (files : List File) :
    majority files = none ↔ ∀ f ∈ files, File.ext f = [] := by
  constructor
  · intro h f hf
    by_contra hfe
    obtain ⟨m, hm, _⟩ := majority_spec_aux files ⟨f, hf, hfe⟩
    rw [h] at hm
    exact Option.noConfusion hm
  · intro h
    have hexts : extsOf files = [] := by
      unfold extsOf
      rw [List.filter_eq_nil_iff]
      intro a ha
      obtain ⟨f, hf, rfl⟩ := List.mem_map.mp ha
      rw [h f hf]
      simp [casefold]
    unfold majority
    rw [hexts]
    rfl

/-- C6 witness: a folder of extensionless files crashes the majority
    computation. -/
theorem C6_majority_witness :
    majority [mkFile "README".toList, mkFile "Makefile".toList] = none :=
  (C6_majority_none_iff _).mpr (by decide)

/-- Splitting on a one-character separator yields one more piece than there
    are separator occurrences. -/
lemma pySplit_length (sep : Char) : ∀ s : List Char,
    (pySplit sep s).length = s.count sep + 1 := by
  intro s
  induction s with
  | nil => simp [pySplit]
  | cons c rest ih =>
    by_cases h : c = sep
    · subst h
      have hsplit : pySplit c (c :: rest) = [] :: pySplit c rest := by
        simp [pySplit]
      rw [hsplit, List.length_cons, ih, List.count_cons]
      simp
    · cases hp : pySplit sep rest with
      | nil =>
        rw [hp] at ih
        simp at ih
      | cons piece ps =>
        rw [hp] at ih
        simp only [pySplit, if_neg h, hp, List.length_cons, List.count_cons]
        simp only [List.length_cons] at ih
        have hcs : (c == sep) = false := beq_eq_false_iff_ne.mpr h
        rw [hcs]
        simp
        omega

/-- One `--replace` value is rejected exactly when splitting it on `=` does
    not give two pieces. -/
lemma parseReplaceValue_eq_none_iff (s : List Char) :
    parseReplaceValue s = none ↔ (pySplit '=' s).length ≠ 2 := by
  unfold parseReplaceValue
  cases h : pySplit '=' s with
  | nil => simp
  | cons a t =>
    cases t with
    | nil => simp
    | cons b u =>
      cases u with
      | nil => simp
      | cons c v => simp

/-- The replacement-dict fold fails exactly when some raw value fails to
    parse. -/
lemma buildReplace_eq_none_iff :
    ∀ (args : List (List Char)) (acc : List (List Char × List Char)),
      buildReplace args acc = none ↔ ∃ a ∈ args, parseReplaceValue a = none := by
  intro args
  induction args with
  | nil => intro acc; simp [buildReplace]
  | cons a rest ih =>
    intro acc
    cases h : parseReplaceValue a with
    | none =>
      simp only [buildReplace, h]
      constructor
      · intro _
        exact ⟨a, List.mem_cons_self _ _, h⟩
      · intro _
        trivial
    | some kv =>
      obtain ⟨k, v⟩ := kv
      simp only [buildReplace, h, ih]
      constructor
      · rintro ⟨x, hx, hpx⟩
        exact ⟨x, List.mem_cons_of_mem _ hx, hpx⟩
      · rintro ⟨x, hx, hpx⟩
        rcases List.mem_cons.mp hx with rfl | hx'
        · rw [h] at hpx
          exact Option.noConfusion hpx
        · exact ⟨x, hx', hpx⟩

/-- C7: configuration parsing takes the diagnostic-and-exit-1 path exactly
    when the resolved target path does not exist or some `--replace` value
    does not split on `=` into exactly two pieces (equivalently, does not
    contain exactly one `=`); every other input yields a configuration. -/
theorem C7_get_config_exit_iff (pathExists : Bool)
    (args : List (List Char)) :
    (get_config pathExists args = none ↔
      pathExists = false ∨ ∃ a ∈ args, (pySplit '=' a).length ≠ 2) ∧
    (∀ a : List Char, (pySplit '=' a).length = a.count '=' + 1) := by
  constructor
  · cases pathExists with
    | false => simp [get_config]
    | true =>
      have hcfg : get_config true args = buildReplace args [] := rfl
      rw [hcfg, buildReplace_eq_none_iff]
      constructor
      · rintro ⟨a, ha, hpa⟩
        exact Or.inr ⟨a, ha, (parseReplaceValue_eq_none_iff a).mp hpa⟩
      · rintro (hfalse | ⟨a, ha, hla⟩)
        · exact Bool.noConfusion hfalse
        · exact ⟨a, ha, (parseReplaceValue_eq_none_iff a).mpr hla⟩
  · exact pySplit_length '='

/-- C7 witness: a malformed replace value with two separators is fatal. -/
theorem C7_get_config_witness :
    get_config true ["a=b=c".toList] = none :=
  (C7_get_config_exit_iff true ["a=b=c".toList]).1.mpr
    (Or.inr ⟨"a=b=c".toList, by decide, by decide⟩)

/-- C8 counterexample: after a successful rename of `1.jpg` to `01.jpg`
    (padding 2), a second call computes a new name equal to the file's
    current on-disk name (`new_filename`), yet still answers `true` and
    issues a rename request sourced at the stale original name — the code
    compares against and renames from the never-updated `old_filename`,
    so the claimed equal-to-current-name/no-action/`false` behaviour fails
    on a call made after an earlier successful rename. -/
theorem C8_rename_counterexample :
    get_new_filename
        ((rename_to_pattern (mkFile "1.jpg".toList) 2 []).1).old_filename 2 []
      = ((rename_to_pattern (mkFile "1.jpg".toList) 2 []).1).new_filename ∧
    (rename_to_pattern ((rename_to_pattern (mkFile "1.jpg".toList) 2 []).1)
        2 []).2.1 = true ∧
    (rename_to_pattern ((rename_to_pattern (mkFile "1.jpg".toList) 2 []).1)
        2 []).2.2
      = [("1.jpg".toList, "01.jpg".toList)] :=
  ⟨by decide, by decide, by decide⟩

/-- C8 (amended): on each call, `rename_to_pattern` compares the computed
    new name to the immutable ORIGINAL name `old_filename` (not to a
    current-name field, which the code never updates): when they are equal
    it does nothing and answers `false`; otherwise it records the new name
    in `new_filename`, issues one rename request sourced at the original
    name, and answers `true` — also on a repeated call after an earlier
    successful rename, where the rename source is then stale. -/
theorem C8_rename_to_pattern_amended (f : File) (p : Nat)
    (r : List (List Char × List Char)) :
    (get_new_filename f.old_filename p r = f.old_filename →
      rename_to_pattern f p r = (f, false, [])) ∧
    (get_new_filename f.old_filename p r ≠ f.old_filename →
      rename_to_pattern f p r
        = ({ f with new_filename := get_new_filename f.old_filename p r },
           true,
           [(f.old_filename, get_new_filename f.old_filename p r)])) :=
  ⟨fun h => rename_to_pattern_eq_neg f p r h,
   fun h => rename_to_pattern_eq_pos f p r h⟩

/-- C8 witness: both branches instantiated concretely. -/
theorem C8_rename_to_pattern_witness :
    rename_to_pattern (mkFile "1.jpg".toList) 2 []
      = ({ mkFile "1.jpg".toList with new_filename := "01.jpg".toList },
         true, [("1.jpg".toList, "01.jpg".toList)]) ∧
    rename_to_pattern (mkFile "10.jpg".toList) 2 []
      = (mkFile "10.jpg".toList, false, []) := by
  constructor
  · exact ((C8_rename_to_pattern_amended (mkFile "1.jpg".toList) 2 []).2
      (by decide)).trans (by decide)
  · exact (C8_rename_to_pattern_amended (mkFile "10.jpg".toList) 2 []).1
      (by decide)

/-- Peeling the maximal leading block of a repeated character with
    `dropWhile`. -/
lemma dropWhile_replicate_decomp (ch : Char) : ∀ s : List Char,
    ∃ m, s = List.replicate m ch ++ s.dropWhile (fun c => c = ch) ∧
      ∀ x, (s.dropWhile (fun c => c = ch)).head? = some x → x ≠ ch := by
  intro s
  induction s with
  | nil => exact ⟨0, rfl, by simp⟩
  | cons a t ih =>
    by_cases h : a = ch
    · subst h
      obtain ⟨m, hm, hh⟩ := ih
      have hd : (a :: t).dropWhile (fun c => c = a) = t.dropWhile (fun c => c = a) := by
        simp [List.dropWhile]
      refine ⟨m + 1, ?_, ?_⟩
      · rw [hd, List.replicate_succ, List.cons_append, ← hm]
      · rw [hd]
        exact hh
    · have hd : (a :: t).dropWhile (fun c => c = ch) = a :: t := by
        simp [List.dropWhile, h]
      refine ⟨0, by rw [hd]; rfl, ?_⟩
      rw [hd]
      intro x hx
      simp only [List.head?_cons, Option.some.injEq] at hx
      subst hx
      exact h

/-- Characterisation of Python `str.strip(ch)`: the input is a block of
    `ch`, then the result, then another block of `ch`, and the result
    neither starts nor ends with `ch` — i.e. the strip is repeated, removing
    every leading and trailing occurrence. -/
lemma pyStrip_spec (ch : Char) (s : List Char) :
    ∃ m n, s = List.replicate m ch ++ pyStrip ch s ++ List.replicate n ch ∧
      (∀ x, (pyStrip ch s).head? = some x → x ≠ ch) ∧
      (∀ x, (pyStrip ch s).getLast? = some x → x ≠ ch) := by
  obtain ⟨m, hm, hmh⟩ := dropWhile_replicate_decomp ch s
  obtain ⟨n, hn, hnh⟩ :=
    dropWhile_replicate_decomp ch (s.dropWhile (fun c => c = ch)).reverse
  have hstrip : pyStrip ch s
      = ((s.dropWhile (fun c => c = ch)).reverse.dropWhile
          (fun c => c = ch)).reverse := rfl
  have hu : s.dropWhile (fun c => c = ch)
      = pyStrip ch s ++ List.replicate n ch := by
    have := congrArg List.reverse hn
    rw [List.reverse_reverse, List.reverse_append, List.reverse_replicate] at this
    rw [this, hstrip]
  refine ⟨m, n, ?_, ?_, ?_⟩
  · conv_lhs => rw [hm, hu]
    rw [List.append_assoc]
  · intro x hx
    rw [hstrip] at hx
    cases hw : ((s.dropWhile (fun c => c = ch)).reverse.dropWhile
        (fun c => c = ch)).reverse with
    | nil => rw [hw] at hx; exact Option.noConfusion hx
    | cons a t =>
      rw [hw] at hx
      simp only [List.head?_cons, Option.some.injEq] at hx
      subst hx
      refine hmh a ?_
      rw [hu, hstrip, hw]
      rfl
  · intro x hx
    rw [hstrip, List.getLast?_reverse] at hx
    exact hnh x hx

/-- C9 counterexample: the source part `''a''` of a valid replace value is
    stored as `a` — both quote layers are removed — not as `'a'` with one
    layer retained, refuting the single-layer-strip reading. -/
theorem C9_strip_counterexample :
    parseReplaceValue [squote, squote, 'a', squote, squote, '=', 'b']
      = some (['a'], ['b']) ∧
    (['a'] : List Char) ≠ [squote, 'a', squote] :=
  ⟨by decide, by decide⟩

/-- C9 (amended): for a valid replace value the stored key and value are
    obtained from the two pieces by stripping, from each side, EVERY
    leading/trailing straight single-quote character and then every
    leading/trailing double-quote character (Python `str.strip` semantics —
    a repeated strip per quote character, not a single layer), so a part
    written `''a''` is stored as `a` with no quotes retained. -/
theorem C9_strip_amended (a k v : List Char)
    (h : pySplit '=' a = [k, v]) :
    parseReplaceValue a = some (stripQuotes k, stripQuotes v) ∧
    (∀ s : List Char, ∃ m n,
      s = List.replicate m squote ++ pyStrip squote s
            ++ List.replicate n squote ∧
      (∀ x, (pyStrip squote s).head? = some x → x ≠ squote) ∧
      (∀ x, (pyStrip squote s).getLast? = some x → x ≠ squote)) ∧
    stripQuotes [squote, squote, 'a', squote, squote] = ['a'] := by
  refine ⟨?_, fun s => pyStrip_spec squote s, by decide⟩
  unfold parseReplaceValue
  rw [h]

/-- C9 witness: the amended strip behaviour at the counterexample input. -/
theorem C9_strip_witness :
    parseReplaceValue [squote, squote, 'a', squote, squote, '=', 'b']
      = some (stripQuotes [squote, squote, 'a', squote, squote],
              stripQuotes ['b']) :=
  (C9_strip_amended [squote, squote, 'a', squote, squote, '=', 'b']
    [squote, squote, 'a', squote, squote] ['b'] (by decide)).1

end Theorems

end Numerator
